import Mathlib

/-!
Verification of the model-selection strategy layer and recognizer of the
AIND sign-language recognizer (`my_model_selectors.py`, `my_recognizer.py`).

Shallow embedding conventions:
* Observation frames are rows of rationals (`Frame`); a word's data is a list
  of sequences of frames; the concatenated representation is a pair
  `(X : List Frame, lengths : List ℕ)` exactly as in the Python code.
* The external HMM library (`hmmlearn`'s `GaussianHMM.fit` / `.score`) and
  `np.log` are modelled as a deterministic oracle `HmmEnv`: `fitRaw` may fail
  (an exception inside `GaussianHMM(...).fit`), `score` may fail
  (`model.score` raising), `log` stands for `np.log`.  `sklearn`'s
  `KFold().split` is a separate oracle `k : ℕ → Except Unit _` of the number
  of sequences (the fold indices depend only on the sample count).
* Python exceptions are `Except Unit`; a `try/except` is an explicit `match`.
* `np.mean` over a nonempty list is `sum / length`.  `np.mean([])` is NaN in
  numpy; a NaN score never satisfies a `<`/`>` comparison, so the running
  best is never set and the subsequent `NameError` on `best_n` lands in the
  enclosing `except`, i.e. the observable result of `select()` is the
  constant fallback.  We model that whole NaN path as an error, which yields
  the same `select()` result (the empty-mean condition does not depend on the
  candidate state count, so either every candidate takes the NaN path or
  none does).
* `SelectorCV.CV_score` assigns `self.X, self.lengths`; the selector state is
  threaded explicitly, and every `select()` returns the final state next to
  the chosen model.
-/

/-- One observation frame: the feature row of the observation matrix. -/
abbrev Frame := List ℚ

/-- One observation sequence: a list of frames. -/
abbrev ObsSeq := List Frame

/-- External HMM fitting/scoring collaborator (`hmmlearn` + `np.log`).
`fitRaw X lengths n_components random_state` is `GaussianHMM(...).fit`,
which may raise; `score` is `model.score`, which may raise; `log` is
`np.log` of a frame count. -/
structure HmmEnv (M : Type) where
  fitRaw : List Frame → List ℕ → ℕ → ℕ → Except Unit M
  score : M → List Frame → List ℕ → Except Unit ℚ
  log : ℕ → ℚ

/-- The state held by `ModelSelector.__init__`: per-word sequences, the
global word → (X, lengths) index, this word's own sequences and concatenated
data, and the search configuration.  (`verbose` only controls printing and
is omitted; `random_state` is passed to the fit oracle.) -/
structure ModelSelector where
  words : List (String × List ObsSeq)
  hwords : List (String × (List Frame × List ℕ))
  sequences : List ObsSeq
  X : List Frame
  lengths : List ℕ
  this_word : String
  n_constant : ℕ
  min_n_components : ℕ
  max_n_components : ℕ
  random_state : ℕ

/-- Python's `range(a, b)`. -/
def pyRange (a b : ℕ) : List ℕ := (List.range (b - a)).map (a + ·)

/-- `ModelSelector.base_model`: try to fit at `num_states`; on any exception
return `None`. -/
def base_model {M : Type} (env : HmmEnv M) (s : ModelSelector) (num_states : ℕ) : Option M :=
  (env.fitRaw s.X s.lengths num_states s.random_state).toOption

/-- Running-best update shared by the three search loops: Python's
`if better(score, best_score): best_score, best_n = score, n`, with `none`
standing for the initial unbound `best_n` (the initial `float("Inf")` /
`float("-INF")` bound is beaten by every finite score). -/
def updBest (better : ℚ → ℚ → Bool) (sc : ℚ) (n : ℕ) : Option (ℚ × ℕ) → Option (ℚ × ℕ)
  | none => some (sc, n)
  | some (b, bn) => if better sc b then some (sc, n) else some (b, bn)

/-- The `for n_comp in range(...)` search loop shared by BIC/DIC/CV
`select()`: evaluate the criterion for each candidate, keep the running
best, and abort on the first exception (the source wraps the whole loop in
one `try`).  The selector state `σ` is threaded through because `CV_score`
mutates `self.X`/`self.lengths`. -/
def searchLoop {σ : Type} (f : σ → ℕ → Except Unit ℚ × σ) (better : ℚ → ℚ → Bool) :
    List ℕ → σ → Option (ℚ × ℕ) → Except Unit (Option (ℚ × ℕ)) × σ
  | [], st, best => (.ok best, st)
  | n :: rest, st, best =>
    match f st n with
    | (.error e, st2) => (.error e, st2)
    | (.ok sc, st2) => searchLoop f better rest st2 (updBest better sc n best)

/-- `SelectorConstant.select`: one fit at `n_constant`, returned directly. -/
def SelectorConstant.select {M : Type} (env : HmmEnv M) (s : ModelSelector) :
    Option M × ModelSelector :=
  (base_model env s s.n_constant, s)

/-- `SelectorBIC.BIC_score`: fit at `n_comp` (a failed fit is `None`, so the
subsequent `model.score` raises), score on the word's own data, and combine
with the free-parameter penalty `p = n² + 2·n·f − 1` against `log N`. -/
def BIC_score {M : Type} (env : HmmEnv M) (s : ModelSelector) (n_comp : ℕ) : Except Unit ℚ :=
  match base_model env s n_comp with
  | none => .error ()
  | some model =>
    match env.score model s.X s.lengths with
    | .error e => .error e
    | .ok logL =>
      let n_features := (s.X.headD []).length
      let logN := env.log s.X.length
      let p : ℚ := ((n_comp ^ 2 + 2 * n_comp * n_features : ℕ) : ℚ) - 1
      .ok (-2 * logL + p * logN)

/-- `SelectorBIC.select`: scan `range(min_n, max_n + 1)` keeping the lowest
BIC (strict `<`), refit at the winner; any exception during the search falls
back to the fit at `n_constant`. -/
def SelectorBIC.select {M : Type} (env : HmmEnv M) (s : ModelSelector) :
    Option M × ModelSelector :=
  match searchLoop (fun _ n => (BIC_score env s n, ())) (fun a b => decide (a < b))
      (pyRange s.min_n_components (s.max_n_components + 1)) () none with
  | (.ok (some (_, best_n)), _) => (base_model env s best_n, s)
  | _ => (base_model env s s.n_constant, s)

/-- The `for word, (seq, length) in self.hwords.items()` loop of
`SelectorDIC.DIC_score`: score every word other than `this_word` against the
candidate model, in index order, propagating scoring exceptions. -/
def scoreOthers {M : Type} (env : HmmEnv M) (model : M) (w : String) :
    List (String × (List Frame × List ℕ)) → Except Unit (List ℚ)
  | [] => .ok []
  | (word, sl) :: rest =>
    if word = w then scoreOthers env model w rest
    else
      match env.score model sl.1 sl.2 with
      | .error e => .error e
      | .ok v =>
        match scoreOthers env model w rest with
        | .error e => .error e
        | .ok vs => .ok (v :: vs)

/-- `SelectorDIC.DIC_score`: own log-likelihood minus the mean of the
other-word log-likelihoods.  An empty other-word list makes `np.mean` NaN,
which (see the header) is observably the fallback path of `select()`; it is
modelled as an error. -/
def DIC_score {M : Type} (env : HmmEnv M) (s : ModelSelector) (n_comp : ℕ) : Except Unit ℚ :=
  match base_model env s n_comp with
  | none => .error ()
  | some model =>
    match env.score model s.X s.lengths with
    | .error e => .error e
    | .ok logL =>
      match scoreOthers env model s.this_word s.hwords with
      | .error e => .error e
      | .ok vs =>
        if vs.length = 0 then .error ()
        else .ok (logL - vs.sum / (vs.length : ℚ))

/-- `SelectorDIC.select`: scan keeping the highest DIC (strict `>`), refit at
the winner; any exception falls back to the fit at `n_constant`. -/
def SelectorDIC.select {M : Type} (env : HmmEnv M) (s : ModelSelector) :
    Option M × ModelSelector :=
  match searchLoop (fun _ n => (DIC_score env s n, ())) (fun a b => decide (b < a))
      (pyRange s.min_n_components (s.max_n_components + 1)) () none with
  | (.ok (some (_, best_n)), _) => (base_model env s best_n, s)
  | _ => (base_model env s s.n_constant, s)

/-- Modelled from the spec: `combine_sequences` lives in `asl_utils`, which
is not among the provided sources.  Per the spec's ConcatenatedIndex, it
turns the selected sequences (by index) into the pair of the flattened
observation matrix and the per-sequence frame counts, preserving order. -/
def combine_sequences (idx : List ℕ) (sequences : List ObsSeq) : List Frame × List ℕ :=
  ((idx.map (fun i => sequences.getD i [])).flatten,
   (idx.map (fun i => sequences.getD i [])).map List.length)

/-- The mutation `self.X, self.lengths = combine_sequences(cv_train_idx,
self.sequences)` performed for each fold inside `CV_score`. -/
def cvSet (s : ModelSelector) (tr : List ℕ) : ModelSelector :=
  { s with X := (combine_sequences tr s.sequences).1,
           lengths := (combine_sequences tr s.sequences).2 }

/-- The fold loop of `SelectorCV.CV_score`: for each `(cv_train_idx,
cv_test_idx)` pair, overwrite `self.X`/`self.lengths` with the training
fold's concatenation (this mutation is never undone), fit at `n_comp`
(a `None` model makes `model.score` raise), score the held-out fold, and
finally average; an empty score list is numpy's NaN path (see header). -/
def CVfolds {M : Type} (env : HmmEnv M) (n_comp : ℕ) :
    ModelSelector → List (List ℕ × List ℕ) → List ℚ → Except Unit ℚ × ModelSelector
  | s, [], scores =>
    if scores.length = 0 then (.error (), s)
    else (.ok (scores.sum / (scores.length : ℚ)), s)
  | s, (cv_train_idx, cv_test_idx) :: rest, scores =>
    let st := cvSet s cv_train_idx
    match base_model env st n_comp with
    | none => (.error (), st)
    | some model =>
      match env.score model (combine_sequences cv_test_idx st.sequences).1
          (combine_sequences cv_test_idx st.sequences).2 with
      | .error e => (.error e, st)
      | .ok sc => CVfolds env n_comp st rest (scores ++ [sc])

/-- `SelectorCV.CV_score`: build the folds with `KFold().split` (which may
raise for too few sequences) and run the fold loop. -/
def CV_score {M : Type} (env : HmmEnv M) (k : ℕ → Except Unit (List (List ℕ × List ℕ)))
    (s : ModelSelector) (n_comp : ℕ) : Except Unit ℚ × ModelSelector :=
  match k s.sequences.length with
  | .error e => (.error e, s)
  | .ok folds => CVfolds env n_comp s folds []

/-- `SelectorCV.select`: scan keeping the highest mean CV log-likelihood
(strict `>`), then refit at the winner — on whatever `self.X`/`self.lengths`
the last `CV_score` left behind; any exception falls back to the fit at
`n_constant` (again on the current, possibly mutated, state). -/
def SelectorCV.select {M : Type} (env : HmmEnv M)
    (k : ℕ → Except Unit (List (List ℕ × List ℕ))) (s : ModelSelector) :
    Option M × ModelSelector :=
  match searchLoop (fun st n => CV_score env k st n) (fun a b => decide (b < a))
      (pyRange s.min_n_components (s.max_n_components + 1)) s none with
  | (.ok (some (_, best_n)), s2) => (base_model env s2 best_n, s2)
  | (.ok none, s2) => (base_model env s2 s2.n_constant, s2)
  | (.error _, s2) => (base_model env s2 s2.n_constant, s2)

/-- One cell of the recognizer's score table: `model.score` with a raised
exception recorded as `float("-inf")` (`⊥`). -/
def scoreCell {M : Type} (score : M → List Frame → List ℕ → Except Unit ℚ) (m : M)
    (X : List Frame) (lengths : List ℕ) : WithBot ℚ :=
  match score m X lengths with
  | .ok v => (v : WithBot ℚ)
  | .error _ => ⊥

/-- The inner `for trained_word, model in models.items()` loop of
`recognize`: build the probability row in iteration order while tracking the
best score (strict `>`, initial `float("-inf")`) and best guess (initial
`""`). -/
def recognizeItem {M : Type} (score : M → List Frame → List ℕ → Except Unit ℚ)
    (X : List Frame) (lengths : List ℕ) :
    List (String × M) → WithBot ℚ → String → List (String × WithBot ℚ) × String
  | [], _, best_guess => ([], best_guess)
  | (trained_word, m) :: rest, best_score, best_guess =>
    let sc := scoreCell score m X lengths
    let b2 := if best_score < sc then (sc, trained_word) else (best_score, best_guess)
    let r := recognizeItem score X lengths rest b2.1 b2.2
    ((trained_word, sc) :: r.1, r.2)

/-- `recognize`: one probability row and one guess per test item, in the
test set's iteration order. -/
def recognize {M : Type} (score : M → List Frame → List ℕ → Except Unit ℚ)
    (models : List (String × M)) (test_set : List (List Frame × List ℕ)) :
    List (List (String × WithBot ℚ)) × List String :=
  (test_set.map (fun d => (recognizeItem score d.1 d.2 models ⊥ "").1),
   test_set.map (fun d => (recognizeItem score d.1 d.2 models ⊥ "").2))

/-- The fields of the selection context that no selector ever assigns
(everything except `X` and `lengths`, which `CV_score` overwrites). -/
def sameCore (s t : ModelSelector) : Prop :=
  t.words = s.words ∧ t.hwords = s.hwords ∧ t.sequences = s.sequences ∧
  t.this_word = s.this_word ∧ t.n_constant = s.n_constant ∧
  t.min_n_components = s.min_n_components ∧ t.max_n_components = s.max_n_components ∧
  t.random_state = s.random_state

instance {ε α : Type} [DecidableEq ε] [DecidableEq α] : DecidableEq (Except ε α)
  | .ok a, .ok b =>
    if h : a = b then .isTrue (by rw [h]) else .isFalse (by intro c; cases c; exact h rfl)
  | .error a, .error b =>
    if h : a = b then .isTrue (by rw [h]) else .isFalse (by intro c; cases c; exact h rfl)
  | .ok _, .error _ => .isFalse (by intro c; cases c)
  | .error _, .ok _ => .isFalse (by intro c; cases c)


/-- Pure replay of the running-best state of `searchLoop` on the candidate
criterion values, used to reason about the loop on its success path. -/
def runBest (v : ℕ → ℚ) (better : ℚ → ℚ → Bool) : List ℕ → Option (ℚ × ℕ) → Option (ℚ × ℕ)
  | [], acc => acc
  | n :: rest, acc => runBest v better rest (updBest better (v n) n acc)

/-- Pure replay of the best-guess tracking of `recognize`'s inner loop over
the already-computed score row. -/
def bestGuess : List (String × WithBot ℚ) → WithBot ℚ → String → String
  | [], _, bg => bg
  | (w, sc) :: rest, bs, bg => if bs < sc then bestGuess rest sc w else bestGuess rest bs bg

/-- Maximum of the score row's cells starting from a floor `b`. -/
def maxFrom (b : WithBot ℚ) (cells : List (String × WithBot ℚ)) : WithBot ℚ :=
  cells.foldl (fun a c => max a c.2) b



/-- Concrete fit/score oracle for witnesses: fitting always succeeds and the
model is its own state count; scoring returns the negated state count. -/
def envW : HmmEnv ℕ :=
  { fitRaw := fun _ _ n _ => .ok n,
    score := fun m _ _ => .ok (-(m : ℚ)),
    log := fun _ => 1 }

/-- A concrete one-word selection context with search range `[2, 4]`. -/
def sW : ModelSelector :=
  { words := [], hwords := [], sequences := [[[0], [0]]], X := [[0], [0]], lengths := [2],
    this_word := "W", n_constant := 5, min_n_components := 2, max_n_components := 4,
    random_state := 14 }

/-- The BIC values `envW`/`sW` produce: `-2·(-n) + (n² + 2·n·1 − 1)·1`. -/
def fW : ℕ → ℚ := fun n => (n : ℚ) ^ 2 + 4 * n - 1

/-- Oracle whose fit fails at exactly 2 states and succeeds elsewhere. -/
def envC3 : HmmEnv ℕ :=
  { fitRaw := fun _ _ n _ => if n = 2 then .error () else .ok n,
    score := fun _ _ _ => .ok 0,
    log := fun _ => 1 }

/-- Context with range `[2, 3]` and constant fallback 5 for `envC3`. -/
def sC3 : ModelSelector :=
  { words := [], hwords := [], sequences := [[[1]]], X := [[1]], lengths := [1],
    this_word := "W", n_constant := 5, min_n_components := 2, max_n_components := 3,
    random_state := 14 }

/-- DIC witness oracle: a model scores its own state count on its word's data
and the negation on the other word's data. -/
def envD : HmmEnv ℕ :=
  { fitRaw := fun _ _ n _ => .ok n,
    score := fun m X _ => .ok (if X = [[(2 : ℚ)]] then -(m : ℚ) else (m : ℚ)),
    log := fun _ => 1 }

/-- Two-word context for the DIC witness. -/
def sD : ModelSelector :=
  { words := [], hwords := [("A", ([[1]], [1])), ("B", ([[2]], [1]))], sequences := [],
    X := [[1]], lengths := [1], this_word := "A", n_constant := 7,
    min_n_components := 2, max_n_components := 3, random_state := 14 }

/-- The DIC values `envD`/`sD` produce: `n − (−n)`. -/
def fD : ℕ → ℚ := fun n => 2 * n

/-- Fit oracle that records its training inputs inside the model, to observe
which data a returned model was actually fitted on. -/
def env2 : HmmEnv ((List Frame × List ℕ) × ℕ) :=
  { fitRaw := fun X len n _ => .ok ((X, len), n),
    score := fun _ _ _ => .ok 1,
    log := fun _ => 1 }

/-- A two-fold split oracle (`KFold` on two sequences). -/
def k2 : ℕ → Except Unit (List (List ℕ × List ℕ)) := fun _ => .ok [([0], [1]), ([1], [0])]

/-- Two-sequence context whose full concatenation is `[[1], [2]]`. -/
def sIn : ModelSelector :=
  { words := [], hwords := [], sequences := [[[1]], [[2]]], X := [[1], [2]], lengths := [1, 1],
    this_word := "W", n_constant := 3, min_n_components := 2, max_n_components := 2,
    random_state := 14 }

/-- Recognizer scoring oracle: model 0 always raises, any other model scores
its own index. -/
def scoreR : ℕ → List Frame → List ℕ → Except Unit ℚ := fun m _ _ =>
  if m = 0 then .error () else .ok (m : ℚ)

lemma pyRange_pairwise (a b : ℕ) : (pyRange a b).Pairwise (· < ·) :=
  (List.pairwise_lt_range _).map _ (fun _ _ h => Nat.add_lt_add_left h a)

lemma pyRange_ne_nil {a b : ℕ} (h : a ≤ b) : pyRange a (b + 1) ≠ [] := by
  intro hc
  have hlen := congrArg List.length hc
  simp [pyRange] at hlen
  omega

lemma runBest_src (v : ℕ → ℚ) (better : ℚ → ℚ → Bool) :
    ∀ (l : List ℕ) (acc : Option (ℚ × ℕ)) (b : ℚ) (bn : ℕ),
      runBest v better l acc = some (b, bn) → acc = some (b, bn) ∨ (bn ∈ l ∧ v bn = b) := by
  intro l
  induction l with
  | nil => intro acc b bn h; exact Or.inl h
  | cons n rest ih =>
    intro acc b bn h
    simp only [runBest] at h
    rcases ih (updBest better (v n) n acc) b bn h with h1 | h2
    · rcases acc with _ | ⟨a, an⟩
      · rw [show updBest better (v n) n none = some (v n, n) from rfl] at h1
        injection h1 with h1'
        injection h1' with hv hn
        subst hn
        exact Or.inr ⟨List.mem_cons_self n rest, hv⟩
      · by_cases hb : better (v n) a
        · rw [show updBest better (v n) n (some (a, an)) = some (v n, n) from by
            simp [updBest, hb]] at h1
          injection h1 with h1'
          injection h1' with hv hn
          subst hn
          exact Or.inr ⟨List.mem_cons_self n rest, hv⟩
        · rw [show updBest better (v n) n (some (a, an)) = some (a, an) from by
            simp [updBest, hb]] at h1
          exact Or.inl h1
    · exact Or.inr ⟨List.mem_cons_of_mem n h2.1, h2.2⟩

lemma runBest_improve (v : ℕ → ℚ) (better : ℚ → ℚ → Bool)
    (htrans : ∀ a b c, better a b = true → better b c = true → better a c = true) :
    ∀ (l : List ℕ) (acc : Option (ℚ × ℕ)) (b : ℚ) (bn : ℕ) (a : ℚ) (an : ℕ),
      runBest v better l acc = some (b, bn) → acc = some (a, an) →
      b = a ∨ better b a = true := by
  intro l
  induction l with
  | nil =>
    intro acc b bn a an h hacc
    rw [hacc] at h
    simp only [runBest, Option.some.injEq, Prod.mk.injEq] at h
    exact Or.inl h.1.symm
  | cons n rest ih =>
    intro acc b bn a an h hacc
    subst hacc
    simp only [runBest] at h
    by_cases hb : better (v n) a
    · rw [show updBest better (v n) n (some (a, an)) = some (v n, n) from by
        simp [updBest, hb]] at h
      rcases ih _ b bn (v n) n h rfl with h2 | h2
      · exact Or.inr (h2 ▸ hb)
      · exact Or.inr (htrans b (v n) a h2 hb)
    · rw [show updBest better (v n) n (some (a, an)) = some (a, an) from by
        simp [updBest, hb]] at h
      exact ih _ b bn a an h rfl

lemma runBest_strictNew (v : ℕ → ℚ) (better : ℚ → ℚ → Bool)
    (htrans : ∀ a b c, better a b = true → better b c = true → better a c = true) :
    ∀ (l : List ℕ) (acc : Option (ℚ × ℕ)) (b : ℚ) (bn : ℕ),
      runBest v better l acc = some (b, bn) →
      acc = some (b, bn) ∨ ∀ a an, acc = some (a, an) → better b a = true := by
  intro l
  induction l with
  | nil => intro acc b bn h; exact Or.inl (by simpa only [runBest] using h)
  | cons n rest ih =>
    intro acc b bn h
    simp only [runBest] at h
    rcases acc with _ | ⟨a, an⟩
    · exact Or.inr (fun a an hc => by cases hc)
    · by_cases hb : better (v n) a
      · rw [show updBest better (v n) n (some (a, an)) = some (v n, n) from by
          simp [updBest, hb]] at h
        rcases ih _ b bn h with h2 | h2
        · injection h2 with h2'
          injection h2' with h3 h4
          refine Or.inr (fun a' an' hc => ?_)
          injection hc with hc'
          injection hc' with hc1 hc2
          subst hc1
          rw [← h3]
          exact hb
        · have hba := h2 (v n) n rfl
          refine Or.inr (fun a' an' hc => ?_)
          injection hc with hc'
          injection hc' with hc1 hc2
          subst hc1
          exact htrans b (v n) a hba hb
      · rw [show updBest better (v n) n (some (a, an)) = some (a, an) from by
          simp [updBest, hb]] at h
        rcases ih _ b bn h with h2 | h2
        · exact Or.inl h2
        · refine Or.inr (fun a' an' hc => ?_)
          injection hc with hc'
          injection hc' with hc1 hc2
          subst hc1
          exact h2 a an rfl

lemma runBest_not_better (v : ℕ → ℚ) (better : ℚ → ℚ → Bool)
    (htrans : ∀ a b c, better a b = true → better b c = true → better a c = true)
    (hirr : ∀ a, better a a = false) :
    ∀ (l : List ℕ) (acc : Option (ℚ × ℕ)) (b : ℚ) (bn : ℕ),
      runBest v better l acc = some (b, bn) →
      ∀ n, n ∈ l → better (v n) b = false := by
  intro l
  induction l with
  | nil => intro acc b bn _ n hn; cases hn
  | cons m rest ih =>
    intro acc b bn h n hn
    simp only [runBest] at h
    rcases List.mem_cons.mp hn with rfl | hn2
    · -- the head candidate: the final best is at least as good as the updated best
      have hacc' : ∃ a' an', updBest better (v n) n acc = some (a', an') ∧
          better (v n) a' = false := by
        rcases acc with _ | ⟨a, an⟩
        · exact ⟨v n, n, rfl, hirr (v n)⟩
        · by_cases hb : better (v n) a
          · exact ⟨v n, n, by simp [updBest, hb], hirr (v n)⟩
          · exact ⟨a, an, by simp [updBest, hb], by simpa using hb⟩
      obtain ⟨a', an', hupd, hnb⟩ := hacc'
      rw [hupd] at h
      rcases runBest_improve v better htrans rest _ b bn a' an' h rfl with h2 | h2
      · rw [h2]; exact hnb
      · by_contra hc
        have hc' : better (v n) b = true := by
          cases hcc : better (v n) b
          · exact absurd hcc hc
          · rfl
        have := htrans (v n) b a' hc' h2
        rw [this] at hnb
        cases hnb
    · exact ih _ b bn h n hn2

lemma runBest_first (v : ℕ → ℚ) (better : ℚ → ℚ → Bool)
    (htrans : ∀ a b c, better a b = true → better b c = true → better a c = true)
    (hirr : ∀ a, better a a = false) :
    ∀ (l : List ℕ) (acc : Option (ℚ × ℕ)) (b : ℚ) (bn : ℕ),
      l.Pairwise (· < ·) →
      (∀ a an, acc = some (a, an) → ∀ x ∈ l, an < x) →
      runBest v better l acc = some (b, bn) →
      ∀ n, n ∈ l → v n = b → bn ≤ n := by
  intro l
  induction l with
  | nil => intro acc b bn _ _ _ n hn; cases hn
  | cons m rest ih =>
    intro acc b bn hl hacc h n hn hv
    have hm : ∀ x ∈ rest, m < x := fun x hx => (List.pairwise_cons.mp hl).1 x hx
    have hrest : rest.Pairwise (· < ·) := (List.pairwise_cons.mp hl).2
    simp only [runBest] at h
    have hacc' : ∀ a' an', updBest better (v m) m acc = some (a', an') →
        ∀ x ∈ rest, an' < x := by
      intro a' an' hupd x hx
      rcases acc with _ | ⟨a, an⟩
      · rw [show updBest better (v m) m none = some (v m, m) from rfl] at hupd
        injection hupd with hupd'
        injection hupd' with _ h2
        subst h2
        exact hm x hx
      · by_cases hb : better (v m) a
        · rw [show updBest better (v m) m (some (a, an)) = some (v m, m) from by
            simp [updBest, hb]] at hupd
          injection hupd with hupd'
          injection hupd' with _ h2
          subst h2
          exact hm x hx
        · rw [show updBest better (v m) m (some (a, an)) = some (a, an) from by
            simp [updBest, hb]] at hupd
          injection hupd with hupd'
          injection hupd' with _ h2
          subst h2
          exact hacc a an rfl x (List.mem_cons_of_mem m hx)
    rcases List.mem_cons.mp hn with rfl | hn2
    · -- n = m : show bn ≤ m
      rcases runBest_src v better rest _ b bn h with hsrc | ⟨hmem, hvb⟩
      · -- the final best is exactly the updated accumulator
        rcases acc with _ | ⟨a, an⟩
        · rw [show updBest better (v n) n none = some (v n, n) from rfl] at hsrc
          injection hsrc with hsrc'
          injection hsrc' with _ h2
          subst h2
          exact le_refl n
        · by_cases hb : better (v n) a
          · rw [show updBest better (v n) n (some (a, an)) = some (v n, n) from by
              simp [updBest, hb]] at hsrc
            injection hsrc with hsrc'
            injection hsrc' with _ h2
            subst h2
            exact le_refl n
          · rw [show updBest better (v n) n (some (a, an)) = some (a, an) from by
              simp [updBest, hb]] at hsrc
            injection hsrc with hsrc'
            injection hsrc' with _ h2
            subst h2
            exact le_of_lt (hacc a an rfl n (List.mem_cons_self n rest))
      · -- the final best was adopted strictly later in `rest`: impossible for a tie
        exfalso
        rcases runBest_strictNew v better htrans rest _ b bn h with heq | hstrict
        · -- then bn is the index stored in the updated accumulator, not in rest
          rcases acc with _ | ⟨a, an⟩
          · rw [show updBest better (v n) n none = some (v n, n) from rfl] at heq
            injection heq with heq'
            injection heq' with _ h2
            subst h2
            exact lt_irrefl n (hm n hmem)
          · by_cases hb : better (v n) a
            · rw [show updBest better (v n) n (some (a, an)) = some (v n, n) from by
                simp [updBest, hb]] at heq
              injection heq with heq'
              injection heq' with _ h2
              subst h2
              exact lt_irrefl n (hm n hmem)
            · rw [show updBest better (v n) n (some (a, an)) = some (a, an) from by
                simp [updBest, hb]] at heq
              injection heq with heq'
              injection heq' with _ h2
              subst h2
              exact lt_irrefl an (hacc a an rfl an (List.mem_cons_of_mem n hmem))
        · -- the final best strictly beats the updated accumulator, whose value
          -- is at least a tie with `v n = b`: contradiction with irreflexivity
          rcases acc with _ | ⟨a, an⟩
          · have := hstrict (v n) n rfl
            rw [hv, hirr b] at this
            cases this
          · by_cases hb : better (v n) a
            · have := hstrict (v n) n (by simp [updBest, hb])
              rw [hv, hirr b] at this
              cases this
            · have := hstrict a an (by simp [updBest, hb])
              have hvb : better (v n) a = true := by rw [hv]; exact this
              rw [hvb] at hb
              exact hb rfl
    · exact ih _ b bn hrest hacc' h n hn2 hv

lemma updBest_isSome (better : ℚ → ℚ → Bool) (sc : ℚ) (n : ℕ) (acc : Option (ℚ × ℕ)) :
    (updBest better sc n acc).isSome := by
  rcases acc with _ | ⟨a, an⟩
  · rfl
  · by_cases hb : better sc a <;> simp [updBest, hb]

lemma runBest_some_of_acc (v : ℕ → ℚ) (better : ℚ → ℚ → Bool) :
    ∀ (l : List ℕ) (acc : Option (ℚ × ℕ)), acc.isSome → (runBest v better l acc).isSome := by
  intro l
  induction l with
  | nil => intro acc h; exact h
  | cons n rest ih =>
    intro acc h
    simp only [runBest]
    exact ih _ (updBest_isSome better (v n) n acc)

lemma runBest_cons_isSome (v : ℕ → ℚ) (better : ℚ → ℚ → Bool) (n : ℕ) (rest : List ℕ)
    (acc : Option (ℚ × ℕ)) : (runBest v better (n :: rest) acc).isSome := by
  simp only [runBest]
  exact runBest_some_of_acc v better rest _ (updBest_isSome better (v n) n acc)

lemma searchLoop_ok_of_all {σ : Type} (f : σ → ℕ → Except Unit ℚ × σ)
    (better : ℚ → ℚ → Bool) (v : ℕ → ℚ) :
    ∀ (l : List ℕ) (st : σ) (acc : Option (ℚ × ℕ)),
      (∀ st2 n, n ∈ l → (f st2 n).1 = .ok (v n)) →
      (searchLoop f better l st acc).1 = .ok (runBest v better l acc) := by
  intro l
  induction l with
  | nil => intro st acc _; rfl
  | cons n rest ih =>
    intro st acc hall
    have hn := hall st n (List.mem_cons_self n rest)
    rcases hfn : f st n with ⟨r, st2⟩
    rw [hfn] at hn
    simp only at hn
    subst hn
    simp only [searchLoop, runBest, hfn]
    exact ih st2 _ (fun st2 n2 hn2 => hall st2 n2 (List.mem_cons_of_mem n hn2))

lemma searchLoop_error_of_el {σ : Type} (f : σ → ℕ → Except Unit ℚ × σ)
    (better : ℚ → ℚ → Bool) :
    ∀ (l : List ℕ) (st : σ) (acc : Option (ℚ × ℕ)) (n0 : ℕ),
      n0 ∈ l → (∀ st2, (f st2 n0).1 = .error ()) →
      ∃ stE, searchLoop f better l st acc = (.error (), stE) := by
  intro l
  induction l with
  | nil => intro st acc n0 h0 _; cases h0
  | cons n rest ih =>
    intro st acc n0 h0 herr
    rcases hfn : f st n with ⟨r, st2⟩
    rcases r with e | sc
    · cases e
      exact ⟨st2, by simp [searchLoop, hfn]⟩
    · rcases List.mem_cons.mp h0 with rfl | h02
      · have := herr st
        rw [hfn] at this
        cases this
      · simp only [searchLoop, hfn]
        exact ih st2 _ n0 h02 herr

lemma searchLoop_pres {σ : Type} (f : σ → ℕ → Except Unit ℚ × σ)
    (better : ℚ → ℚ → Bool) (P : σ → Prop)
    (hP : ∀ st n r st2, f st n = (r, st2) → P st → P st2) :
    ∀ (l : List ℕ) (st : σ) (acc : Option (ℚ × ℕ)),
      P st → P (searchLoop f better l st acc).2 := by
  intro l
  induction l with
  | nil => intro st acc h; exact h
  | cons n rest ih =>
    intro st acc h
    rcases hfn : f st n with ⟨r, st2⟩
    have h2 := hP st n r st2 hfn h
    rcases r with e | sc
    · simpa [searchLoop, hfn] using h2
    · simp only [searchLoop, hfn]
      exact ih st2 _ h2

lemma searchLoop_ok_src {σ : Type} (f : σ → ℕ → Except Unit ℚ × σ)
    (better : ℚ → ℚ → Bool) (P : σ → Prop)
    (hP : ∀ st n r st2, f st n = (r, st2) → P st → P st2) :
    ∀ (l : List ℕ) (st : σ) (acc : Option (ℚ × ℕ)) (b : ℚ) (bn : ℕ) (stF : σ),
      P st → searchLoop f better l st acc = (.ok (some (b, bn)), stF) →
      acc = some (b, bn) ∨ (bn ∈ l ∧ ∃ st0 st1, P st0 ∧ f st0 bn = (.ok b, st1)) := by
  intro l
  induction l with
  | nil =>
    intro st acc b bn stF _ h
    simp only [searchLoop, Prod.mk.injEq] at h
    exact Or.inl (by injection h.1 with h1)
  | cons n rest ih =>
    intro st acc b bn stF hp h
    rcases hfn : f st n with ⟨r, st2⟩
    have hp2 := hP st n r st2 hfn hp
    rcases r with e | sc
    · rw [show searchLoop f better (n :: rest) st acc = (.error e, st2) from by
        simp [searchLoop, hfn]] at h
      injection h with h1 _
      cases h1
    · rw [show searchLoop f better (n :: rest) st acc
          = searchLoop f better rest st2 (updBest better sc n acc) from by
        simp [searchLoop, hfn]] at h
      rcases ih st2 _ b bn stF hp2 h with h1 | h2
      · rcases acc with _ | ⟨a, an⟩
        · rw [show updBest better sc n none = some (sc, n) from rfl] at h1
          injection h1 with h1'
          injection h1' with hv hn
          subst hn
          exact Or.inr ⟨List.mem_cons_self n rest, st, st2, hp, by rw [hfn, hv]⟩
        · by_cases hb : better sc a
          · rw [show updBest better sc n (some (a, an)) = some (sc, n) from by
              simp [updBest, hb]] at h1
            injection h1 with h1'
            injection h1' with hv hn
            subst hn
            exact Or.inr ⟨List.mem_cons_self n rest, st, st2, hp, by rw [hfn, hv]⟩
          · rw [show updBest better sc n (some (a, an)) = some (a, an) from by
              simp [updBest, hb]] at h1
            exact Or.inl h1
      · exact Or.inr ⟨List.mem_cons_of_mem n h2.1, h2.2⟩

lemma searchLoop_ok_last {σ : Type} (f : σ → ℕ → Except Unit ℚ × σ)
    (better : ℚ → ℚ → Bool) (P : σ → Prop)
    (hP : ∀ st n r st2, f st n = (r, st2) → P st → P st2) :
    ∀ (l : List ℕ) (st : σ) (acc : Option (ℚ × ℕ)) (r0 : Option (ℚ × ℕ)) (stF : σ),
      P st → l ≠ [] → searchLoop f better l st acc = (.ok r0, stF) →
      ∃ st0 nL v0, P st0 ∧ l.getLast? = some nL ∧ f st0 nL = (.ok v0, stF) := by
  intro l
  induction l with
  | nil => intro st acc r0 stF _ hne _; exact absurd rfl hne
  | cons n rest ih =>
    intro st acc r0 stF hp _ h
    rcases hfn : f st n with ⟨r, st2⟩
    have hp2 := hP st n r st2 hfn hp
    rcases r with e | sc
    · rw [show searchLoop f better (n :: rest) st acc = (.error e, st2) from by
        simp [searchLoop, hfn]] at h
      injection h with h1 _
      cases h1
    · rw [show searchLoop f better (n :: rest) st acc
          = searchLoop f better rest st2 (updBest better sc n acc) from by
        simp [searchLoop, hfn]] at h
      rcases rest with _ | ⟨n2, rest2⟩
      · simp only [searchLoop, Prod.mk.injEq] at h
        refine ⟨st, n, sc, hp, rfl, ?_⟩
        rw [hfn, h.2]
      · obtain ⟨st0, nL, v0, hq, hlast, hcall⟩ :=
          ih st2 _ r0 stF hp2 (by simp) h
        exact ⟨st0, nL, v0, hq, by rw [List.getLast?_cons_cons]; exact hlast, hcall⟩

lemma sameCore_refl (s : ModelSelector) : sameCore s s :=
  ⟨rfl, rfl, rfl, rfl, rfl, rfl, rfl, rfl⟩

lemma sameCore_trans {s t u : ModelSelector} (h1 : sameCore s t) (h2 : sameCore t u) :
    sameCore s u := by
  obtain ⟨a1, a2, a3, a4, a5, a6, a7, a8⟩ := h1
  obtain ⟨b1, b2, b3, b4, b5, b6, b7, b8⟩ := h2
  exact ⟨b1.trans a1, b2.trans a2, b3.trans a3, b4.trans a4, b5.trans a5,
    b6.trans a6, b7.trans a7, b8.trans a8⟩

lemma base_model_congr {M : Type} (env : HmmEnv M) {a b : ModelSelector} (n : ℕ)
    (h1 : a.X = b.X) (h2 : a.lengths = b.lengths) (h3 : a.random_state = b.random_state) :
    base_model env a n = base_model env b n := by
  unfold base_model
  rw [h1, h2, h3]

lemma CVfolds_core {M : Type} (env : HmmEnv M) (n : ℕ) :
    ∀ (folds : List (List ℕ × List ℕ)) (s : ModelSelector) (scores : List ℚ),
      sameCore s (CVfolds env n s folds scores).2 := by
  intro folds
  induction folds with
  | nil =>
    intro s scores
    by_cases h : scores.length = 0 <;> simp [CVfolds, h, sameCore_refl]
  | cons p rest ih =>
    intro s scores
    rcases p with ⟨tr, te⟩
    have hst : sameCore s (cvSet s tr) :=
      ⟨rfl, rfl, rfl, rfl, rfl, rfl, rfl, rfl⟩
    simp only [CVfolds]
    split
    · exact hst
    · split
      · exact hst
      · exact sameCore_trans hst (ih _ _)

lemma cvSet_X (s : ModelSelector) (tr : List ℕ) :
    (cvSet s tr).X = (combine_sequences tr s.sequences).1 := rfl

lemma cvSet_lengths (s : ModelSelector) (tr : List ℕ) :
    (cvSet s tr).lengths = (combine_sequences tr s.sequences).2 := rfl

lemma CVfolds_ok_shape {M : Type} (env : HmmEnv M) (n : ℕ) :
    ∀ (folds : List (List ℕ × List ℕ)) (s : ModelSelector) (scores : List ℚ)
      (v : ℚ) (s2 : ModelSelector),
      CVfolds env n s folds scores = (.ok v, s2) →
      folds = [] ∨
        ∃ lf, folds.getLast? = some lf
          ∧ s2.X = (combine_sequences lf.1 s.sequences).1
          ∧ s2.lengths = (combine_sequences lf.1 s.sequences).2
          ∧ ∃ m, base_model env s2 n = some m := by
  intro folds
  induction folds with
  | nil => intro s scores v s2 _; exact Or.inl rfl
  | cons p rest ih =>
    intro s scores v s2 h
    rcases p with ⟨tr, te⟩
    simp only [CVfolds] at h
    split at h
    · injection h with h1 _
      cases h1
    · split at h
      · injection h with h1 _
        cases h1
      · rename_i x1 model hbm x2 sc hsc
        rcases rest with _ | ⟨p2, rest2⟩
        · simp only [CVfolds] at h
          rw [if_neg (by simp)] at h
          injection h with _ h2
          subst h2
          exact Or.inr ⟨(tr, te), rfl, cvSet_X s tr, cvSet_lengths s tr, model, hbm⟩
        · rcases ih (cvSet s tr) (scores ++ [sc]) v s2 h with hnil | ⟨lf, hlast, hX, hlen, hm⟩
          · cases hnil
          · refine Or.inr ⟨lf, ?_, hX, hlen, hm⟩
            rw [List.getLast?_cons_cons]
            exact hlast

lemma CV_score_core {M : Type} (env : HmmEnv M)
    (k : ℕ → Except Unit (List (List ℕ × List ℕ))) (s : ModelSelector) (n : ℕ) :
    sameCore s (CV_score env k s n).2 := by
  unfold CV_score
  split
  · exact sameCore_refl s
  · exact CVfolds_core env n _ s []

lemma CV_score_ok_shape {M : Type} (env : HmmEnv M)
    (k : ℕ → Except Unit (List (List ℕ × List ℕ))) (s : ModelSelector) (n : ℕ)
    (v : ℚ) (s2 : ModelSelector) (h : CV_score env k s n = (.ok v, s2)) :
    ∃ folds lf, k s.sequences.length = .ok folds ∧ folds.getLast? = some lf
      ∧ s2.X = (combine_sequences lf.1 s.sequences).1
      ∧ s2.lengths = (combine_sequences lf.1 s.sequences).2
      ∧ ∃ m, base_model env s2 n = some m := by
  unfold CV_score at h
  split at h
  · injection h with h1 _
    cases h1
  · rename_i folds hk
    rcases CVfolds_ok_shape env n folds s [] v s2 h with rfl | ⟨lf, hlast, hX, hlen, hm⟩
    · simp [CVfolds] at h
    · exact ⟨folds, lf, hk, hlast, hX, hlen, hm⟩

lemma maxFrom_cons (b : WithBot ℚ) (c : String × WithBot ℚ) (l : List (String × WithBot ℚ)) :
    maxFrom b (c :: l) = maxFrom (max b c.2) l := rfl

lemma le_maxFrom : ∀ (l : List (String × WithBot ℚ)) (b : WithBot ℚ), b ≤ maxFrom b l := by
  intro l
  induction l with
  | nil => intro b; exact le_refl b
  | cons c rest ih =>
    intro b
    rw [maxFrom_cons]
    exact le_trans (le_max_left b c.2) (ih (max b c.2))

lemma mem_le_maxFrom : ∀ (l : List (String × WithBot ℚ)) (b : WithBot ℚ)
    (c : String × WithBot ℚ), c ∈ l → c.2 ≤ maxFrom b l := by
  intro l
  induction l with
  | nil => intro b c hc; cases hc
  | cons c0 rest ih =>
    intro b c hc
    rw [maxFrom_cons]
    rcases List.mem_cons.mp hc with rfl | hc2
    · exact le_trans (le_max_right b c.2) (le_maxFrom rest (max b c.2))
    · exact ih (max b c0.2) c hc2

lemma bestGuess_of_not_lt : ∀ (l : List (String × WithBot ℚ)) (bs : WithBot ℚ) (bg : String),
    (∀ c ∈ l, ¬ bs < c.2) → bestGuess l bs bg = bg := by
  intro l
  induction l with
  | nil => intro bs bg _; rfl
  | cons c rest ih =>
    intro bs bg hall
    rcases c with ⟨w, sc⟩
    have h1 : ¬ bs < sc := hall (w, sc) (List.mem_cons_self _ rest)
    simp only [bestGuess, if_neg h1]
    exact ih bs bg (fun c hc => hall c (List.mem_cons_of_mem _ hc))

lemma bestGuess_max : ∀ (l : List (String × WithBot ℚ)) (bs : WithBot ℚ) (bg : String),
    bs < maxFrom bs l →
    ∃ pre g mx post, l = pre ++ (g, mx) :: post
      ∧ bestGuess l bs bg = g
      ∧ mx = maxFrom bs l
      ∧ ∀ c ∈ pre, c.2 < mx := by
  intro l
  induction l with
  | nil =>
    intro bs bg h
    exact absurd h (lt_irrefl bs)
  | cons c rest ih =>
    intro bs bg h
    rcases c with ⟨w, sc⟩
    rw [maxFrom_cons] at h ⊢
    by_cases hc : bs < sc
    · rw [max_eq_right (le_of_lt hc)] at h ⊢
      by_cases h2 : sc < maxFrom sc rest
      · obtain ⟨pre, g, mx, post, heq, hbg, hmx, hpre⟩ := ih sc w h2
        refine ⟨(w, sc) :: pre, g, mx, post, by rw [heq, List.cons_append], ?_, hmx, ?_⟩
        · simp only [bestGuess, if_pos hc]
          exact hbg
        · intro c hcm
          rcases List.mem_cons.mp hcm with rfl | hcm2
          · rw [hmx]; exact h2
          · exact hpre c hcm2
      · have hle : maxFrom sc rest ≤ sc := not_lt.mp h2
        have heq : maxFrom sc rest = sc := le_antisymm hle (le_maxFrom rest sc)
        refine ⟨[], w, sc, rest, by simp, ?_, heq.symm, by intro c hc0; cases hc0⟩
        simp only [bestGuess, if_pos hc]
        exact bestGuess_of_not_lt rest sc w
          (fun c hcm => not_lt.mpr (le_of_le_of_eq (mem_le_maxFrom rest sc c hcm) heq))
    · rw [max_eq_left (not_lt.mp hc)] at h ⊢
      obtain ⟨pre, g, mx, post, heq, hbg, hmx, hpre⟩ := ih bs bg h
      refine ⟨(w, sc) :: pre, g, mx, post, by rw [heq, List.cons_append], ?_, hmx, ?_⟩
      · simp only [bestGuess, if_neg hc]
        exact hbg
      · intro c hcm
        rcases List.mem_cons.mp hcm with rfl | hcm2
        · rw [hmx]
          exact lt_of_le_of_lt (not_lt.mp hc) h
        · exact hpre c hcm2

lemma recognizeItem_row {M : Type} (score : M → List Frame → List ℕ → Except Unit ℚ)
    (X : List Frame) (lengths : List ℕ) :
    ∀ (models : List (String × M)) (bs : WithBot ℚ) (bg : String),
      (recognizeItem score X lengths models bs bg).1
        = models.map (fun p => (p.1, scoreCell score p.2 X lengths)) := by
  intro models
  induction models with
  | nil => intro bs bg; rfl
  | cons p rest ih =>
    intro bs bg
    rcases p with ⟨w, m⟩
    simp only [recognizeItem, List.map_cons, List.cons.injEq]
    exact ⟨trivial, ih _ _⟩

lemma recognizeItem_guess {M : Type} (score : M → List Frame → List ℕ → Except Unit ℚ)
    (X : List Frame) (lengths : List ℕ) :
    ∀ (models : List (String × M)) (bs : WithBot ℚ) (bg : String),
      (recognizeItem score X lengths models bs bg).2
        = bestGuess (models.map (fun p => (p.1, scoreCell score p.2 X lengths))) bs bg := by
  intro models
  induction models with
  | nil => intro bs bg; rfl
  | cons p rest ih =>
    intro bs bg
    rcases p with ⟨w, m⟩
    by_cases hlt : bs < scoreCell score m X lengths
    · simp only [recognizeItem, List.map_cons, bestGuess, if_pos hlt]
      exact ih _ _
    · simp only [recognizeItem, List.map_cons, bestGuess, if_neg hlt]
      exact ih _ _

lemma getD_map_lt {α β : Type} (f : α → β) (l : List α) (i : ℕ) (hi : i < l.length)
    (d : α) (d2 : β) : (l.map f).getD i d2 = f (l.getD i d) := by
  rw [List.getD_eq_getElem?_getD, List.getD_eq_getElem?_getD, List.getElem?_map,
    List.getElem?_eq_getElem hi]
  rfl

/-- C10: `SelectorConstant.select` performs exactly one fitting attempt, at
`n_constant` states on the word's stored data, and returns its outcome
directly — the model when the fit succeeds, nothing when that single fit
fails — with no retry, no fallback, and no change to the selector state. -/
theorem C10_constant_single_fit {M : Type} (env : HmmEnv M) (s : ModelSelector) :
    SelectorConstant.select env s
        = ((env.fitRaw s.X s.lengths s.n_constant s.random_state).toOption, s)
    ∧ (∀ m, env.fitRaw s.X s.lengths s.n_constant s.random_state = .ok m →
        (SelectorConstant.select env s).1 = some m)
    ∧ (env.fitRaw s.X s.lengths s.n_constant s.random_state = .error () →
        (SelectorConstant.select env s).1 = none) := by
  refine ⟨rfl, ?_, ?_⟩
  · intro m h
    simp [SelectorConstant.select, base_model, h, Except.toOption]
  · intro h
    simp [SelectorConstant.select, base_model, h, Except.toOption]

/-- C10 witness: with the always-succeeding oracle, the single fit at the
constant count 5 is exactly what comes back. -/
theorem C10_witness : (SelectorConstant.select envW sW).1 = some 5 :=
  (C10_constant_single_fit envW sW).2.1 5 rfl

/-- C7: `recognize` emits exactly one score row and exactly one guess per
test item, in the test set's iteration order; every row holds one cell per
model in model order, and an (item, model) pair whose scoring raises is
recorded as `⊥` (negative infinity) in its cell instead of aborting the
row. -/
theorem C7_recognize_shape {M : Type} (score : M → List Frame → List ℕ → Except Unit ℚ)
    (models : List (String × M)) (test_set : List (List Frame × List ℕ)) :
    (recognize score models test_set).1
      = test_set.map (fun d => models.map (fun p => (p.1, scoreCell score p.2 d.1 d.2)))
    ∧ (recognize score models test_set).1.length = test_set.length
    ∧ (recognize score models test_set).2.length = test_set.length
    ∧ (∀ m X lengths, score m X lengths = .error () →
        scoreCell score m X lengths = ⊥) := by
  refine ⟨?_, by simp [recognize], by simp [recognize], ?_⟩
  · simp only [recognize]
    exact List.map_congr_left (fun d _ => recognizeItem_row score d.1 d.2 models ⊥ "")
  · intro m X lengths h
    simp [scoreCell, h]

/-- C7 witness: the failing model's cell evaluates to `⊥`. -/
theorem C7_witness : scoreCell scoreR 0 [[1]] [1] = ⊥ :=
  (C7_recognize_shape scoreR [("A", 1)] [([[1]], [1])]).2.2.2 0 [[1]] [1] rfl

/-- C9: for a test item on which every model's scoring fails (every cell
`⊥`), and vacuously when the model mapping is empty, `recognize` still
appends the row, and the guess appended is the empty string — not a key of
the model mapping — because the running best starts at negative infinity and
is only updated on a strictly greater score. -/
theorem C9_all_fail_guess_empty {M : Type} (score : M → List Frame → List ℕ → Except Unit ℚ)
    (models : List (String × M)) (X : List Frame) (lengths : List ℕ)
    (h : ∀ p ∈ models, scoreCell score p.2 X lengths = ⊥) :
    (recognize score models [(X, lengths)]).1
      = [models.map (fun p => (p.1, (⊥ : WithBot ℚ)))]
    ∧ (recognize score models [(X, lengths)]).2 = [""]
    ∧ ("" ∉ models.map Prod.fst →
        ∀ g ∈ (recognize score models [(X, lengths)]).2, g ∉ models.map Prod.fst) := by
  have hrow : (recognize score models [(X, lengths)]).1
      = [models.map (fun p => (p.1, (⊥ : WithBot ℚ)))] := by
    simp only [recognize, List.map_cons, List.map_nil]
    rw [recognizeItem_row score X lengths models ⊥ ""]
    rw [List.map_congr_left (fun p hp => by rw [h p hp])]
  have hguess : (recognize score models [(X, lengths)]).2 = [""] := by
    simp only [recognize, List.map_cons, List.map_nil]
    rw [recognizeItem_guess score X lengths models ⊥ ""]
    rw [bestGuess_of_not_lt]
    intro c hc
    rcases List.mem_map.mp hc with ⟨p, hp, rfl⟩
    rw [h p hp]
    exact lt_irrefl ⊥
  refine ⟨hrow, hguess, ?_⟩
  intro hkey g hg
  rw [hguess] at hg
  rcases List.mem_singleton.mp hg with rfl
  exact hkey

/-- C9 witness: one always-failing model yields the row `[("A", ⊥)]` and the
guess `""`. -/
theorem C9_witness :
    (recognize scoreR [("A", 0)] [([[1]], [1])]).2 = [""] :=
  (C9_all_fail_guess_empty scoreR [("A", 0)] [[1]] [1] (by decide)).2.1

/-- C4 counterexample: with one model whose scoring fails, the score row is
`[("A", ⊥)]`, whose argmax word (first word attaining the row maximum `⊥`)
is `"A"`, yet the guess emitted for the item is `""`, which is not the
argmax word — the claim's equation `guesses[i] = argmax(probabilities[i])`
fails at this input. -/
theorem C4_counterexample :
    (recognize scoreR [("A", 0)] [([[1]], [1])]).1 = [[("A", (⊥ : WithBot ℚ))]]
    ∧ (recognize scoreR [("A", 0)] [([[1]], [1])]).2 = [""]
    ∧ maxFrom ⊥ [("A", (⊥ : WithBot ℚ))] = ⊥
    ∧ ("" : String) ≠ "A" := by
  refine ⟨by decide, by decide, by decide, by decide⟩

/-- C4 (amended): for every test item whose row has at least one cell above
negative infinity, the emitted guess is the first word (in model-mapping
order) whose cell attains the row maximum; when every cell is `⊥`
(including an empty model mapping) the emitted guess is `""` rather than an
argmax word. -/
theorem C4_guess_first_argmax {M : Type} (score : M → List Frame → List ℕ → Except Unit ℚ)
    (models : List (String × M)) (test_set : List (List Frame × List ℕ)) (i : ℕ)
    (hi : i < test_set.length) :
    ((⊥ : WithBot ℚ) < maxFrom ⊥ (models.map (fun p =>
        (p.1, scoreCell score p.2 (test_set.getD i ([], [])).1 (test_set.getD i ([], [])).2))) →
      ∃ pre g mx post,
        models.map (fun p => (p.1, scoreCell score p.2 (test_set.getD i ([], [])).1
            (test_set.getD i ([], [])).2)) = pre ++ (g, mx) :: post
        ∧ (recognize score models test_set).2.getD i "" = g
        ∧ mx = maxFrom ⊥ (models.map (fun p => (p.1, scoreCell score p.2
            (test_set.getD i ([], [])).1 (test_set.getD i ([], [])).2)))
        ∧ ∀ c ∈ pre, c.2 < mx)
    ∧ (maxFrom ⊥ (models.map (fun p => (p.1, scoreCell score p.2 (test_set.getD i ([], [])).1
          (test_set.getD i ([], [])).2))) = ⊥ →
        (recognize score models test_set).2.getD i "" = "") := by
  have hgd : (recognize score models test_set).2.getD i ""
      = (recognizeItem score (test_set.getD i ([], [])).1
          (test_set.getD i ([], [])).2 models ⊥ "").2 := by
    simp only [recognize]
    exact getD_map_lt _ test_set i hi ([], []) ""
  rw [hgd, recognizeItem_guess]
  constructor
  · intro hmax
    obtain ⟨pre, g, mx, post, heq, hbg, hmx, hpre⟩ := bestGuess_max _ ⊥ "" hmax
    exact ⟨pre, g, mx, post, heq, hbg, hmx, hpre⟩
  · intro hbot
    apply bestGuess_of_not_lt
    intro c hc
    rw [not_lt]
    exact le_of_le_of_eq (mem_le_maxFrom _ ⊥ c hc) hbot

/-- C4 witness: with scores 1 and 2 and a duplicate maximal score, the guess
is `"B"`, the first word attaining the row maximum 2. -/
theorem C4_amended_witness :
    ∃ pre g mx post,
      ([("A", 1), ("B", 2), ("C", 2)] : List (String × ℕ)).map (fun p =>
          (p.1, scoreCell scoreR p.2 (([([[1]], [1])] : List (List Frame × List ℕ)).getD 0
            ([], [])).1 (([([[1]], [1])] : List (List Frame × List ℕ)).getD 0 ([], [])).2))
        = pre ++ (g, mx) :: post
      ∧ (recognize scoreR [("A", 1), ("B", 2), ("C", 2)] [([[1]], [1])]).2.getD 0 "" = g
      ∧ mx = maxFrom ⊥ (([("A", 1), ("B", 2), ("C", 2)] : List (String × ℕ)).map (fun p =>
          (p.1, scoreCell scoreR p.2 (([([[1]], [1])] : List (List Frame × List ℕ)).getD 0
            ([], [])).1 (([([[1]], [1])] : List (List Frame × List ℕ)).getD 0 ([], [])).2)))
      ∧ ∀ c ∈ pre, c.2 < mx :=
  (C4_guess_first_argmax scoreR [("A", 1), ("B", 2), ("C", 2)] [([[1]], [1])] 0
    (by decide)).1 (by decide)

lemma lt_trans_decide (a b c : ℚ) (h1 : decide (a < b) = true) (h2 : decide (b < c) = true) :
    decide (a < c) = true := by
  simp only [decide_eq_true_eq] at h1 h2 ⊢
  exact lt_trans h1 h2

lemma lt_irrefl_decide (a : ℚ) : decide (a < a) = false := by
  simp

lemma gt_trans_decide (a b c : ℚ) (h1 : decide (b < a) = true) (h2 : decide (c < b) = true) :
    decide (c < a) = true := by
  simp only [decide_eq_true_eq] at h1 h2 ⊢
  exact lt_trans h2 h1

lemma runBest_isSome_of_ne_nil (v : ℕ → ℚ) (better : ℚ → ℚ → Bool) (l : List ℕ)
    (h : l ≠ []) : (runBest v better l none).isSome := by
  rcases l with _ | ⟨n, rest⟩
  · exact absurd rfl h
  · exact runBest_cons_isSome v better n rest none

/-- C5: when every candidate in `range(min_n, max_n + 1)` scores, the model
`SelectorBIC.select` returns is the (re)fit at the state count minimizing
`BIC(n) = -2·logL + (n² + 2·n·f − 1)·log N` — `logL` the candidate's
log-likelihood on its own training data, `N` the total frame count, `f` the
feature count — and on exact BIC ties the smallest such `n` wins, because
the comparison is strict less-than over the ascending scan. -/
theorem C5_bic_minimizer {M : Type} (env : HmmEnv M) (s : ModelSelector) (f : ℕ → ℚ)
    (hne : s.min_n_components ≤ s.max_n_components)
    (hf : ∀ n ∈ pyRange s.min_n_components (s.max_n_components + 1),
      BIC_score env s n = .ok (f n)) :
    ∃ bn m, bn ∈ pyRange s.min_n_components (s.max_n_components + 1)
      ∧ (SelectorBIC.select env s).1 = some m
      ∧ base_model env s bn = some m
      ∧ (∀ n ∈ pyRange s.min_n_components (s.max_n_components + 1), f bn ≤ f n)
      ∧ (∀ n ∈ pyRange s.min_n_components (s.max_n_components + 1), f n = f bn → bn ≤ n)
      ∧ (∀ n ∈ pyRange s.min_n_components (s.max_n_components + 1),
          ∀ mm logL, base_model env s n = some mm →
            env.score mm s.X s.lengths = .ok logL →
            f n = -2 * logL
              + (((n : ℚ) ^ 2 + 2 * (n : ℚ) * ((s.X.headD []).length : ℚ)) - 1)
                * env.log s.X.length) := by
  have hcorr : (searchLoop (fun _ n => (BIC_score env s n, ())) (fun a b => decide (a < b))
      (pyRange s.min_n_components (s.max_n_components + 1)) () none).1
      = .ok (runBest f (fun a b => decide (a < b))
          (pyRange s.min_n_components (s.max_n_components + 1)) none) :=
    searchLoop_ok_of_all _ _ f _ () none (fun _ n hn => by
      simp only []
      rw [hf n hn])
  obtain ⟨⟨b, bn⟩, hrb⟩ := Option.isSome_iff_exists.mp
    (runBest_isSome_of_ne_nil f _ _ (pyRange_ne_nil hne))
  rcases runBest_src f _ _ none b bn hrb with habs | ⟨hmem, hvb⟩
  · cases habs
  -- the selector takes the success branch and refits at `bn`
  have hpair : searchLoop (fun _ n => (BIC_score env s n, ())) (fun a b => decide (a < b))
      (pyRange s.min_n_components (s.max_n_components + 1)) () none
      = (.ok (some (b, bn)), ()) := by
    have h2 := hcorr
    rw [hrb] at h2
    exact Prod.ext h2 rfl
  have hsel : (SelectorBIC.select env s).1 = base_model env s bn := by
    unfold SelectorBIC.select
    rw [hpair]
  -- the winning refit succeeds because its `BIC_score` did
  have hBbn := hf bn hmem
  obtain ⟨m, hm⟩ : ∃ m, base_model env s bn = some m := by
    unfold BIC_score at hBbn
    split at hBbn
    · cases hBbn
    · rename_i x1 model hbm
      exact ⟨model, hbm⟩
  refine ⟨bn, m, hmem, by rw [hsel, hm], hm, ?_, ?_, ?_⟩
  · intro n hn
    have := runBest_not_better f _ lt_trans_decide lt_irrefl_decide _ none b bn hrb n hn
    rw [hvb]
    simpa using this
  · intro n hn hfn
    exact runBest_first f _ lt_trans_decide lt_irrefl_decide _ none b bn
      (pyRange_pairwise _ _) (fun a an h => by cases h) hrb n hn (by rw [hfn, hvb])
  · intro n hn mm logL hbm hsc
    have hB := hf n hn
    unfold BIC_score at hB
    split at hB
    · rename_i hnone
      rw [hnone] at hbm
      cases hbm
    · rename_i x1 model hsome
      rw [hsome] at hbm
      injection hbm with hbm'
      subst hbm'
      split at hB
      · rename_i x2 e herr
        rw [herr] at hsc
        cases hsc
      · rename_i x2 logL2 hok
        rw [hok] at hsc
        injection hsc with hsc'
        subst hsc'
        injection hB with hB'
        rw [← hB']
        push_cast
        ring

/-- C5 witness: with `envW`/`sW`, `BIC(n) = n² + 4n − 1` over `[2, 4]` and
the selector returns the fit at the minimizer 2. -/
theorem C5_witness :
    ∃ bn m, bn ∈ pyRange sW.min_n_components (sW.max_n_components + 1)
      ∧ (SelectorBIC.select envW sW).1 = some m
      ∧ base_model envW sW bn = some m
      ∧ (∀ n ∈ pyRange sW.min_n_components (sW.max_n_components + 1), fW bn ≤ fW n)
      ∧ (∀ n ∈ pyRange sW.min_n_components (sW.max_n_components + 1), fW n = fW bn → bn ≤ n)
      ∧ (∀ n ∈ pyRange sW.min_n_components (sW.max_n_components + 1),
          ∀ mm logL, base_model envW sW n = some mm →
            envW.score mm sW.X sW.lengths = .ok logL →
            fW n = -2 * logL
              + (((n : ℚ) ^ 2 + 2 * (n : ℚ) * ((sW.X.headD []).length : ℚ)) - 1)
                * envW.log sW.X.length) :=
  C5_bic_minimizer envW sW fW (by decide) (by
    intro n hn
    rw [show pyRange sW.min_n_components (sW.max_n_components + 1) = [2, 3, 4] from rfl] at hn
    simp only [List.mem_cons, List.not_mem_nil, or_false] at hn
    rcases hn with rfl | rfl | rfl <;>
      (simp only [BIC_score, base_model, envW, sW, fW, Except.toOption]; norm_num))

lemma scoreOthers_all_ok {M : Type} (env : HmmEnv M) (mm : M) (w : String) :
    ∀ (hw : List (String × (List Frame × List ℕ))) (g : String × (List Frame × List ℕ) → ℚ),
      (∀ p ∈ hw, env.score mm p.2.1 p.2.2 = .ok (g p)) →
      scoreOthers env mm w hw = .ok ((hw.filter (fun p => !(p.1 == w))).map g) := by
  intro hw
  induction hw with
  | nil => intro g _; rfl
  | cons p rest ih =>
    intro g hall
    rcases p with ⟨word, sl⟩
    by_cases hw0 : word = w
    · simp only [scoreOthers, if_pos hw0, List.filter_cons,
        show (!(word == w)) = false from by simp [hw0]]
      exact ih g (fun q hq => hall q (List.mem_cons_of_mem _ hq))
    · have hsc := hall (word, sl) (List.mem_cons_self _ rest)
      simp only [scoreOthers, if_neg hw0, hsc, List.filter_cons,
        show (!(word == w)) = true from by simp [hw0]]
      rw [ih g (fun q hq => hall q (List.mem_cons_of_mem _ hq))]
      simp

/-- C6: when every candidate in `range(min_n, max_n + 1)` scores, the model
`SelectorDIC.select` returns is the (re)fit at the state count maximizing
`DIC(n) = logL(word) − mean(logL over every OTHER vocabulary word's
concatenated sequences scored against the candidate)`, and on exact DIC ties
the first maximum encountered (smallest `n`) wins, because the comparison is
strict greater-than over the ascending scan. -/
theorem C6_dic_maximizer {M : Type} (env : HmmEnv M) (s : ModelSelector) (f : ℕ → ℚ)
    (hne : s.min_n_components ≤ s.max_n_components)
    (hf : ∀ n ∈ pyRange s.min_n_components (s.max_n_components + 1),
      DIC_score env s n = .ok (f n)) :
    ∃ bn m, bn ∈ pyRange s.min_n_components (s.max_n_components + 1)
      ∧ (SelectorDIC.select env s).1 = some m
      ∧ base_model env s bn = some m
      ∧ (∀ n ∈ pyRange s.min_n_components (s.max_n_components + 1), f n ≤ f bn)
      ∧ (∀ n ∈ pyRange s.min_n_components (s.max_n_components + 1), f n = f bn → bn ≤ n)
      ∧ (∀ n ∈ pyRange s.min_n_components (s.max_n_components + 1),
          ∀ mm logL vs, base_model env s n = some mm →
            env.score mm s.X s.lengths = .ok logL →
            scoreOthers env mm s.this_word s.hwords = .ok vs → vs ≠ [] →
            f n = logL - vs.sum / (vs.length : ℚ))
      ∧ (∀ mm g, (∀ p ∈ s.hwords, env.score mm p.2.1 p.2.2 = .ok (g p)) →
          scoreOthers env mm s.this_word s.hwords
            = .ok ((s.hwords.filter (fun p => !(p.1 == s.this_word))).map g)) := by
  have hcorr : (searchLoop (fun _ n => (DIC_score env s n, ())) (fun a b => decide (b < a))
      (pyRange s.min_n_components (s.max_n_components + 1)) () none).1
      = .ok (runBest f (fun a b => decide (b < a))
          (pyRange s.min_n_components (s.max_n_components + 1)) none) :=
    searchLoop_ok_of_all _ _ f _ () none (fun _ n hn => by
      simp only []
      rw [hf n hn])
  obtain ⟨⟨b, bn⟩, hrb⟩ := Option.isSome_iff_exists.mp
    (runBest_isSome_of_ne_nil f _ _ (pyRange_ne_nil hne))
  rcases runBest_src f _ _ none b bn hrb with habs | ⟨hmem, hvb⟩
  · cases habs
  have hpair : searchLoop (fun _ n => (DIC_score env s n, ())) (fun a b => decide (b < a))
      (pyRange s.min_n_components (s.max_n_components + 1)) () none
      = (.ok (some (b, bn)), ()) := by
    have h2 := hcorr
    rw [hrb] at h2
    exact Prod.ext h2 rfl
  have hsel : (SelectorDIC.select env s).1 = base_model env s bn := by
    unfold SelectorDIC.select
    rw [hpair]
  have hBbn := hf bn hmem
  obtain ⟨m, hm⟩ : ∃ m, base_model env s bn = some m := by
    unfold DIC_score at hBbn
    split at hBbn
    · cases hBbn
    · rename_i x1 model hbm
      exact ⟨model, hbm⟩
  refine ⟨bn, m, hmem, by rw [hsel, hm], hm, ?_, ?_, ?_, ?_⟩
  · intro n hn
    have := runBest_not_better f _ gt_trans_decide lt_irrefl_decide _ none b bn hrb n hn
    rw [hvb]
    simpa using this
  · intro n hn hfn
    exact runBest_first f _ gt_trans_decide lt_irrefl_decide _ none b bn
      (pyRange_pairwise _ _) (fun a an h => by cases h) hrb n hn (by rw [hfn, hvb])
  · intro n hn mm logL vs hbm hsc hso hvs
    have hB := hf n hn
    unfold DIC_score at hB
    split at hB
    · rename_i hnone
      rw [hnone] at hbm
      cases hbm
    · rename_i x1 model hsome
      rw [hsome] at hbm
      injection hbm with hbm'
      subst hbm'
      split at hB
      · rename_i x2 e herr
        rw [herr] at hsc
        cases hsc
      · rename_i x2 logL2 hok
        rw [hok] at hsc
        injection hsc with hsc'
        subst hsc'
        split at hB
        · rename_i x3 e herr
          rw [herr] at hso
          cases hso
        · rename_i x3 vs2 hok2
          rw [hok2] at hso
          injection hso with hso'
          subst hso'
          rw [if_neg (by simpa using hvs)] at hB
          injection hB with hB'
          rw [← hB']
  · intro mm g hall
    exact scoreOthers_all_ok env mm s.this_word s.hwords g hall

/-- C6 witness: with `envD`/`sD`, `DIC(n) = n − (−n) = 2n` over `[2, 3]` and
the selector returns the fit at the maximizer 3. -/
theorem C6_witness :
    ∃ bn m, bn ∈ pyRange sD.min_n_components (sD.max_n_components + 1)
      ∧ (SelectorDIC.select envD sD).1 = some m
      ∧ base_model envD sD bn = some m
      ∧ (∀ n ∈ pyRange sD.min_n_components (sD.max_n_components + 1), fD n ≤ fD bn)
      ∧ (∀ n ∈ pyRange sD.min_n_components (sD.max_n_components + 1), fD n = fD bn → bn ≤ n)
      ∧ (∀ n ∈ pyRange sD.min_n_components (sD.max_n_components + 1),
          ∀ mm logL vs, base_model envD sD n = some mm →
            envD.score mm sD.X sD.lengths = .ok logL →
            scoreOthers envD mm sD.this_word sD.hwords = .ok vs → vs ≠ [] →
            fD n = logL - vs.sum / (vs.length : ℚ))
      ∧ (∀ mm g, (∀ p ∈ sD.hwords, envD.score mm p.2.1 p.2.2 = .ok (g p)) →
          scoreOthers envD mm sD.this_word sD.hwords
            = .ok ((sD.hwords.filter (fun p => !(p.1 == sD.this_word))).map g)) :=
  C6_dic_maximizer envD sD fD (by decide) (by
    intro n hn
    rw [show pyRange sD.min_n_components (sD.max_n_components + 1) = [2, 3] from rfl] at hn
    simp only [List.mem_cons, List.not_mem_nil, or_false] at hn
    rcases hn with rfl | rfl <;>
      (simp only [DIC_score, base_model, scoreOthers, envD, sD, fD, Except.toOption]
       simp only [show (("B" : String) = "A") = False from by simp, if_false]
       norm_num))

/-- C3 counterexample: with `envC3`/`sC3` the candidate 2 fails to fit while
candidate 3 fits and scores (BIC 14), so not all candidates in `[2, 3]`
fail; yet `select()` does not continue with candidate 3 — it falls back to
the constant fit at 5 states, contradicting the claim that a failing
candidate is skipped while the search continues. -/
theorem C3_counterexample :
    BIC_score envC3 sC3 2 = .error ()
    ∧ BIC_score envC3 sC3 3 = .ok 14
    ∧ (SelectorBIC.select envC3 sC3).1 = some 5
    ∧ base_model envC3 sC3 3 = some 3
    ∧ some (5 : ℕ) ≠ some 3 := by
  refine ⟨rfl, ?_, rfl, rfl, by decide⟩
  simp only [BIC_score, base_model, envC3, sC3, Except.toOption]
  norm_num

/-- C3 (amended): in `SelectorBIC`'s search a candidate whose fit fails or
whose scoring throws is not skipped: its exception aborts the whole search,
and `select()` falls back to the constant-state-count fit whenever any
candidate in range fails, even when other candidates in range succeed. -/
theorem C3_any_failure_falls_back {M : Type} (env : HmmEnv M) (s : ModelSelector) (n0 : ℕ)
    (hmem : n0 ∈ pyRange s.min_n_components (s.max_n_components + 1))
    (herr : BIC_score env s n0 = .error ()) :
    (SelectorBIC.select env s).1 = base_model env s s.n_constant := by
  obtain ⟨stE, hloop⟩ := searchLoop_error_of_el (fun _ n => (BIC_score env s n, ()))
    (fun a b => decide (a < b)) _ () none n0 hmem (fun _ => by simp only []; rw [herr])
  unfold SelectorBIC.select
  rw [hloop]

/-- C3 amended witness: candidate 2 fails under `envC3`, so the selector
falls back to the constant fit. -/
theorem C3_amended_witness :
    (SelectorBIC.select envC3 sC3).1 = base_model envC3 sC3 sC3.n_constant :=
  C3_any_failure_falls_back envC3 sC3 2 (by decide) rfl

/-- C1: for every selector type and every context, `select()` is total — no
exception escapes it: `SelectorConstant` returns exactly the single fit at
`n_constant`; `SelectorBIC` and `SelectorDIC` return either a usable model
or the fit at `n_constant`; `SelectorCV` returns either a usable model or a
fit at `n_constant` on its current (possibly fold-mutated) data, with all
configuration fields unchanged. -/
theorem C1_select_never_raises {M : Type} (env : HmmEnv M)
    (k : ℕ → Except Unit (List (List ℕ × List ℕ))) (s : ModelSelector) :
    (SelectorConstant.select env s).1 = base_model env s s.n_constant
    ∧ ((∃ m, (SelectorBIC.select env s).1 = some m)
        ∨ (SelectorBIC.select env s).1 = base_model env s s.n_constant)
    ∧ ((∃ m, (SelectorDIC.select env s).1 = some m)
        ∨ (SelectorDIC.select env s).1 = base_model env s s.n_constant)
    ∧ ((∃ m, (SelectorCV.select env k s).1 = some m)
        ∨ (∃ s2, (SelectorCV.select env k s).1 = base_model env s2 s.n_constant
            ∧ sameCore s s2)) := by
  refine ⟨rfl, ?_, ?_, ?_⟩
  · -- SelectorBIC
    rcases hL : searchLoop (fun _ n => (BIC_score env s n, ())) (fun a b => decide (a < b))
        (pyRange s.min_n_components (s.max_n_components + 1)) () none with ⟨r, u⟩
    rcases r with e | ob
    · exact Or.inr (by unfold SelectorBIC.select; rw [hL])
    · rcases ob with _ | ⟨b, bn⟩
      · exact Or.inr (by unfold SelectorBIC.select; rw [hL])
      · rcases searchLoop_ok_src _ _ (fun _ => True) (fun _ _ _ _ _ _ => trivial)
            _ () none b bn u trivial hL with habs | ⟨hmem, u0, u1, _, hcall⟩
        · cases habs
        · have hB : BIC_score env s bn = .ok b := by
            have := congrArg Prod.fst hcall
            simpa using this
          obtain ⟨m, hm⟩ : ∃ m, base_model env s bn = some m := by
            unfold BIC_score at hB
            split at hB
            · cases hB
            · rename_i x1 model hbm
              exact ⟨model, hbm⟩
          refine Or.inl ⟨m, ?_⟩
          have hsel : (SelectorBIC.select env s).1 = base_model env s bn := by
            unfold SelectorBIC.select
            rw [hL]
          rw [hsel, hm]
  · -- SelectorDIC
    rcases hL : searchLoop (fun _ n => (DIC_score env s n, ())) (fun a b => decide (b < a))
        (pyRange s.min_n_components (s.max_n_components + 1)) () none with ⟨r, u⟩
    rcases r with e | ob
    · exact Or.inr (by unfold SelectorDIC.select; rw [hL])
    · rcases ob with _ | ⟨b, bn⟩
      · exact Or.inr (by unfold SelectorDIC.select; rw [hL])
      · rcases searchLoop_ok_src _ _ (fun _ => True) (fun _ _ _ _ _ _ => trivial)
            _ () none b bn u trivial hL with habs | ⟨hmem, u0, u1, _, hcall⟩
        · cases habs
        · have hB : DIC_score env s bn = .ok b := by
            have := congrArg Prod.fst hcall
            simpa using this
          obtain ⟨m, hm⟩ : ∃ m, base_model env s bn = some m := by
            unfold DIC_score at hB
            split at hB
            · cases hB
            · rename_i x1 model hbm
              exact ⟨model, hbm⟩
          refine Or.inl ⟨m, ?_⟩
          have hsel : (SelectorDIC.select env s).1 = base_model env s bn := by
            unfold SelectorDIC.select
            rw [hL]
          rw [hsel, hm]
  · -- SelectorCV
    have hP : ∀ (st : ModelSelector) (n : ℕ) (r : Except Unit ℚ) (st2 : ModelSelector),
        CV_score env k st n = (r, st2) → sameCore s st → sameCore s st2 := by
      intro st n r st2 hf hss
      have hc := CV_score_core env k st n
      rw [hf] at hc
      exact sameCore_trans hss hc
    rcases hL : searchLoop (fun st n => CV_score env k st n) (fun a b => decide (b < a))
        (pyRange s.min_n_components (s.max_n_components + 1)) s none with ⟨r, s2⟩
    have hcore : sameCore s s2 := by
      have := searchLoop_pres (fun st n => CV_score env k st n) (fun a b => decide (b < a))
        (sameCore s) hP (pyRange s.min_n_components (s.max_n_components + 1)) s none
        (sameCore_refl s)
      rw [hL] at this
      exact this
    have hnc : s2.n_constant = s.n_constant := hcore.2.2.2.2.1
    rcases r with e | ob
    · refine Or.inr ⟨s2, ?_, hcore⟩
      have hsel : (SelectorCV.select env k s).1 = base_model env s2 s2.n_constant := by
        unfold SelectorCV.select
        rw [hL]
      rw [hsel, hnc]
    · rcases ob with _ | ⟨b, bn⟩
      · refine Or.inr ⟨s2, ?_, hcore⟩
        have hsel : (SelectorCV.select env k s).1 = base_model env s2 s2.n_constant := by
          unfold SelectorCV.select
          rw [hL]
        rw [hsel, hnc]
      · -- success path: the final refit at `bn` reuses the data of the last
        -- fold of the (shared) fold list, on which the fit at `bn` already
        -- succeeded during candidate `bn`'s own CV pass
        rcases searchLoop_ok_src _ _ (sameCore s) hP _ s none b bn s2 (sameCore_refl s) hL
          with habs | ⟨hmem, st0, st1, hq0, hcall⟩
        · cases habs
        · obtain ⟨folds, lf, hk1, hlast1, hX1, hlen1, m, hbm1⟩ :=
            CV_score_ok_shape env k st0 bn b st1 hcall
          obtain ⟨stL, nL, vL, hqL, hlastL, hcallL⟩ :=
            searchLoop_ok_last _ _ (sameCore s) hP _ s none _ s2 (sameCore_refl s)
              (List.ne_nil_of_mem hmem) hL
          obtain ⟨folds2, lf2, hk2, hlast2, hX2, hlen2, m2, hbm2⟩ :=
            CV_score_ok_shape env k stL nL vL s2 hcallL
          have hseq0 : st0.sequences = s.sequences := hq0.2.2.1
          have hseqL : stL.sequences = s.sequences := hqL.2.2.1
          have hq1 : sameCore s st1 := hP st0 bn _ st1 hcall hq0
          have hfolds : folds2 = folds := by
            rw [hseq0] at hk1
            rw [hseqL] at hk2
            rw [hk1] at hk2
            injection hk2 with h
            exact h.symm
          have hlf : lf2 = lf := by
            rw [hfolds] at hlast2
            rw [hlast1] at hlast2
            injection hlast2 with h
            exact h.symm
          have hbmX : base_model env s2 bn = base_model env st1 bn := by
            apply base_model_congr env bn
            · rw [hX2, hX1, hlf, hseqL, hseq0]
            · rw [hlen2, hlen1, hlf, hseqL, hseq0]
            · rw [hcore.2.2.2.2.2.2.2, hq1.2.2.2.2.2.2.2]
          refine Or.inl ⟨m, ?_⟩
          have hsel : (SelectorCV.select env k s).1 = base_model env s2 bn := by
            unfold SelectorCV.select
            rw [hL]
          rw [hsel, hbmX, hbm1]

/-- C2 failing input: with `env2` (a fit oracle recording its training
inputs inside the model), folds `k2` and context `sIn` (full concatenated
data `([[1], [2]], [1, 1])`, range `[2, 2]`), the cross-validation search
succeeds, yet the returned model was fitted on `([[2]], [1])` — the training
subset of the last fold, left behind in `self.X`/`self.lengths` by
`CV_score` — and not on the word's full concatenated data. -/
theorem C2_cv_final_fit_on_fold_data :
    (SelectorCV.select env2 k2 sIn).1 = some (([[2]], [1]), 2)
    ∧ ([[(2 : ℚ)]], [1]) ≠ (sIn.X, sIn.lengths) := by
  exact ⟨rfl, by decide⟩

/-- C8: the claim's frame property holds for `SelectorConstant`,
`SelectorBIC` and `SelectorDIC` (the state after `select()` is exactly the
state before), but fails for `SelectorCV`: at the concrete input
`env2`/`k2`/`sIn`, `select()` returns with the stored observation matrix
mutated from the full `[[1], [2]]` to the last fold's training subset
`[[2]]`. -/
theorem C8_cv_mutates_context :
    (∀ (M : Type) (env : HmmEnv M) (s : ModelSelector),
        (SelectorConstant.select env s).2 = s
        ∧ (SelectorBIC.select env s).2 = s
        ∧ (SelectorDIC.select env s).2 = s)
    ∧ (SelectorCV.select env2 k2 sIn).2.X = [[2]]
    ∧ sIn.X = [[1], [2]]
    ∧ (SelectorCV.select env2 k2 sIn).2.X ≠ sIn.X := by
  refine ⟨?_, rfl, rfl, by decide⟩
  intro M env s
  refine ⟨rfl, ?_, ?_⟩
  · unfold SelectorBIC.select
    rcases hE : searchLoop (fun _ n => (BIC_score env s n, ())) (fun a b => decide (a < b))
        (pyRange s.min_n_components (s.max_n_components + 1)) () none with ⟨r, u⟩
    rcases r with e | ob
    · rfl
    · rcases ob with _ | ⟨b, bn⟩ <;> rfl
  · unfold SelectorDIC.select
    rcases hE : searchLoop (fun _ n => (DIC_score env s n, ())) (fun a b => decide (b < a))
        (pyRange s.min_n_components (s.max_n_components + 1)) () none with ⟨r, u⟩
    rcases r with e | ob
    · rfl
    · rcases ob with _ | ⟨b, bn⟩ <;> rfl
